import Mathlib

/-!
Verification of the natural-language specification of the carcara Alethe
proof checker against a shallow embedding of its source code.

The embedding covers:
* the raw (unreduced) rational arithmetic used by the linear-arithmetic rules
  (`Rat2`, mirroring `BigRational` values manipulated through the `RawOps`
  operations);
* the `LinearComb` data structure and its operations
  (`src/alethe-proof-checker/src/checker/rules/linear_arithmetic.rs`);
* the `la_generic` rule pipeline (`negate_disequality`, `strengthen`,
  accumulation and the final contradiction check);
* the `lia_generic` cvc5 bridge decision structure
  (`src/alethe-proof-checker/src/checker/lia_generic.rs`);
* the `or`, `resolution` rules and the rule dispatch of the minimal engine
  (`src/src/checker/mod.rs`).
-/

/-- The closed operator enumeration of the term model. Mirrors the
`Operator` enum variants used by the embedded rules (`And`, `Or`, `Not`,
`Implies`, `Equals`, `LessThan`, `LessEq`, `GreaterThan`, `GreaterEq`,
`Add`, `Sub`, `Mult`, `Div`, `Ite`). -/
inductive Op where
  | and | or | not | implies | eq | lt | le | gt | ge
  | add | sub | mult | div | ite
  deriving DecidableEq, Repr

/-- SMT terms, mirroring the constructors of the Rust `Term` type that the
embedded rules inspect: integer literals, real (rational) literals kept as a
raw numerator/denominator pair, free constants (identified by name after
hash-consing, so equality of handles is equality of `Term` values), and
operator applications. Function applications and binders are omitted: none
of the embedded rules inspects them. -/
inductive Term where
  | int (n : Int)
  | real (num den : Int)
  | var (name : String)
  | op (o : Op) (args : List Term)
  deriving Repr

mutual

/-- Boolean structural equality of terms (hash-consed terms compare by
identity in the source, which coincides with structural equality). -/
def Term.beq : Term → Term → Bool
  | .int n, .int m => decide (n = m)
  | .real a b, .real c d => decide (a = c) && decide (b = d)
  | .var s, .var t => decide (s = t)
  | .op o as, .op p bs => decide (o = p) && Term.beqList as bs
  | _, _ => false

def Term.beqList : List Term → List Term → Bool
  | [], [] => true
  | a :: as, b :: bs => Term.beq a b && Term.beqList as bs
  | _, _ => false

end

mutual

theorem Term.beq_refl : ∀ t : Term, Term.beq t t = true
  | .int _ => by simp [Term.beq]
  | .real _ _ => by simp [Term.beq]
  | .var _ => by simp [Term.beq]
  | .op o as => by simp [Term.beq, Term.beqList_refl as]

theorem Term.beqList_refl : ∀ ts : List Term, Term.beqList ts ts = true
  | [] => by simp [Term.beqList]
  | a :: as => by simp [Term.beqList, Term.beq_refl a, Term.beqList_refl as]

end

mutual

theorem Term.eq_of_beq : ∀ {a b : Term}, Term.beq a b = true → a = b
  | .int _, .int _, h => by
    simp only [Term.beq, decide_eq_true_eq] at h; rw [h]
  | .real _ _, .real _ _, h => by
    simp only [Term.beq, Bool.and_eq_true, decide_eq_true_eq] at h
    rw [h.1, h.2]
  | .var _, .var _, h => by
    simp only [Term.beq, decide_eq_true_eq] at h; rw [h]
  | .op _ as, .op _ bs, h => by
    simp only [Term.beq, Bool.and_eq_true, decide_eq_true_eq] at h
    rw [h.1, Term.eqList_of_beqList h.2]
  | .int _, .real _ _, h => by simp [Term.beq] at h
  | .int _, .var _, h => by simp [Term.beq] at h
  | .int _, .op _ _, h => by simp [Term.beq] at h
  | .real _ _, .int _, h => by simp [Term.beq] at h
  | .real _ _, .var _, h => by simp [Term.beq] at h
  | .real _ _, .op _ _, h => by simp [Term.beq] at h
  | .var _, .int _, h => by simp [Term.beq] at h
  | .var _, .real _ _, h => by simp [Term.beq] at h
  | .var _, .op _ _, h => by simp [Term.beq] at h
  | .op _ _, .int _, h => by simp [Term.beq] at h
  | .op _ _, .real _ _, h => by simp [Term.beq] at h
  | .op _ _, .var _, h => by simp [Term.beq] at h

theorem Term.eqList_of_beqList : ∀ {as bs : List Term},
    Term.beqList as bs = true → as = bs
  | [], [], _ => rfl
  | a :: as, b :: bs, h => by
    simp only [Term.beqList, Bool.and_eq_true] at h
    rw [Term.eq_of_beq h.1, Term.eqList_of_beqList h.2]
  | [], _ :: _, h => by simp [Term.beqList] at h
  | _ :: _, [], h => by simp [Term.beqList] at h

end

instance : DecidableEq Term := fun a b =>
  if h : Term.beq a b = true then .isTrue (Term.eq_of_beq h)
  else .isFalse (fun he => h (he ▸ Term.beq_refl a))

/-- A raw rational: a numerator/denominator pair that is never reduced,
mirroring how `BigRational` values flow through the checker when built with
the `RawOps` operations. -/
structure Rat2 where
  num : Int
  den : Int
  deriving DecidableEq, Repr

namespace Rat2

def zero : Rat2 := ⟨0, 1⟩

def one : Rat2 := ⟨1, 1⟩

/-- `Zero::is_zero` for `Ratio`: tests whether the numerator is zero. -/
def isZero (x : Rat2) : Bool := x.num = 0

/-- `One::is_one` for `Ratio`: tests `numer == denom`. -/
def isOne (x : Rat2) : Bool := x.num = x.den

/-- Modelled from the spec: the `RawOps` trait (its source is not under
`src/`) adds two `BigRational`s without reducing the result:
`a/b + c/d = (a*d + b*c)/(b*d)`. -/
def rawAdd (x y : Rat2) : Rat2 := ⟨x.num * y.den + x.den * y.num, x.den * y.den⟩

/-- Modelled from the spec: the `RawOps` trait multiplies two
`BigRational`s without reducing the result: `a/b * c/d = (a*c)/(b*d)`. -/
def rawMul (x y : Rat2) : Rat2 := ⟨x.num * y.num, x.den * y.den⟩

/-- `Neg` for `Ratio`: negates the numerator, keeping the denominator. -/
def neg (x : Rat2) : Rat2 := ⟨-x.num, x.den⟩

/-- `Signed::abs` for `Ratio`: negates the value when the numerator is
negative (the denominator is kept positive by the library's contract). -/
def abs (x : Rat2) : Rat2 := if x.num < 0 then x.neg else x

/-- `Ratio::is_integer`: the canonical-form predicate `denom == 1`, which
assumes the fraction is reduced. -/
def isInteger (x : Rat2) : Bool := x.den = 1

/-- `Ratio::floor` followed by conversion back: `numer.div_floor(denom)`
as a rational with denominator one. -/
def floorRat (x : Rat2) : Rat2 := ⟨Int.fdiv x.num x.den, 1⟩

/-- `Ratio::to_integer`, truncating division of numerator by denominator. -/
def toIntegerTrunc (x : Rat2) : Int := Int.tdiv x.num x.den

/-- The mathematical value of a raw rational, as a `ℚ`. Used only on the
specification side of theorems, never by the embedded code. -/
def val (x : Rat2) : ℚ := (x.num : ℚ) / (x.den : ℚ)

end Rat2

/-- `num_integer`'s `is_multiple_of` on `BigInt`: `n` is a multiple of `m`
(with the zero divisor handled as in the library). -/
def intIsMultipleOf (n m : Int) : Bool :=
  if m = 0 then n = 0 else n % m = 0

/-- Modelled from the spec: `Term::as_fraction` (its source, in the `ast`
module, is not under `src/`) returns the rational value of a numeric
literal (integer or rational), and `none` for every other term. -/
def Term.asFraction : Term → Option Rat2
  | .int n => some ⟨n, 1⟩
  | .real n d => some ⟨n, d⟩
  | _ => none

/-- Modelled from the spec: `Term::remove_negation` (its source, in the
`ast` module, is not under `src/`) returns the child of `t` when `t` is
`Not(x)`, and `none` otherwise. -/
def Term.removeNegation : Term → Option Term
  | .op .not [x] => some x
  | _ => none

/-- `LinearComb`: a map from non-constant terms to coefficients plus a
constant, `linear_arithmetic.rs` lines 70-74. The hash map is embedded as
an association list; all operations preserve the correspondence. -/
structure LinearComb where
  map : List (Term × Rat2)
  const : Rat2
  deriving DecidableEq, Repr

namespace LinearComb

/-- `LinearComb::new`. -/
def empty : LinearComb := ⟨[], Rat2.zero⟩

/-- The entry update of `LinearComb::insert` on the underlying map: sum
into an existing entry (removing it when the sum's numerator is zero), or
store the value for a new key. -/
def insertPair : List (Term × Rat2) → Term → Rat2 → List (Term × Rat2)
  | [], k, v => [(k, v)]
  | (k', v') :: rest, k, v =>
    if k' = k then
      let nv := v'.rawAdd v
      if nv.isZero then rest else (k', nv) :: rest
    else (k', v') :: insertPair rest k v

/-- `LinearComb::insert`. -/
def insert (lc : LinearComb) (k : Term) (v : Rat2) : LinearComb :=
  { lc with map := insertPair lc.map k v }

mutual

/-- `LinearComb::add_term`: flattens a term into the linear combination,
multiplying by the running coefficient `coeff`. The `Sub` arm with an empty
argument list indexes `args[0]` in the source and panics; it is embedded as
the identity. -/
def addTerm (lc : LinearComb) (t : Term) (coeff : Rat2) : LinearComb :=
  match t with
  | .op .add args => addTermList lc args coeff
  | .op .sub [a] => addTerm lc a coeff.neg
  | .op .sub [] => lc
  | .op .sub (a :: rest) => addTermList (addTerm lc a coeff) rest coeff.neg
  | .op .mult [a1, a2] =>
    match a1.asFraction, a2.asFraction with
    | none, some c => addTerm lc a1 (coeff.rawMul c)
    | some c, _ => addTerm lc a2 (coeff.rawMul c)
    | none, none => lc.insert (.op .mult [a1, a2]) coeff
  | t =>
    match t.asFraction with
    | some r => { lc with const := lc.const.rawAdd (coeff.rawMul r) }
    | none => lc.insert t coeff

/-- The `for a in args` loops of `LinearComb::add_term`. -/
def addTermList (lc : LinearComb) (ts : List Term) (coeff : Rat2) : LinearComb :=
  match ts with
  | [] => lc
  | a :: rest => addTermList (addTerm lc a coeff) rest coeff

end

/-- `LinearComb::from_term`: flatten a term starting from coefficient 1. -/
def fromTerm (t : Term) : LinearComb := addTerm empty t Rat2.one

/-- `LinearComb::add`: insert every entry of `other` into `self` and add
the constants. -/
def add (self other : LinearComb) : LinearComb :=
  ⟨other.map.foldl (fun acc e => insertPair acc e.1 e.2) self.map,
   self.const.rawAdd other.const⟩

/-- `LinearComb::mul`: clear on a zero scalar, no-op on a one scalar,
otherwise raw-multiply every coefficient and the constant. -/
def mul (lc : LinearComb) (scalar : Rat2) : LinearComb :=
  if scalar.isZero then ⟨[], Rat2.zero⟩
  else if scalar.isOne then lc
  else ⟨lc.map.map (fun e => (e.1, e.2.rawMul scalar)), lc.const.rawMul scalar⟩

/-- `LinearComb::neg`: negate every coefficient and the constant. -/
def neg (lc : LinearComb) : LinearComb :=
  ⟨lc.map.map (fun e => (e.1, e.2.neg)), lc.const.neg⟩

/-- `LinearComb::sub`: negate `other`, then add. -/
def sub (self other : LinearComb) : LinearComb := self.add other.neg

/-- `LinearComb::coefficients_gcd`: the GCD of the absolute values of the
constant and every coefficient, `none` when any of them fails the
canonical `is_integer` test, and at least 1. -/
def coefficientsGcd (lc : LinearComb) : Option Int :=
  if lc.const.isInteger then
    match lc.map.foldl
        (fun acc e =>
          match acc with
          | none => none
          | some r =>
            if e.2.isInteger then some (Nat.gcd e.2.toIntegerTrunc.natAbs r)
            else none)
        (some lc.const.toIntegerTrunc.natAbs) with
    | none => none
    | some r => some ((max 1 r : Nat) : Int)
  else none

end LinearComb

/-- The error kinds raised by the embedded rules (`CheckerError` and
`LinearArithmeticError` variants actually reachable here). -/
inductive CheckerError where
  | invalidDisequalityOp (t : Term)
  | tooManyArgsInDisequality (t : Term)
  | expectedAnyNumber (t : Term)
  | expectedTermStyleArg (name : String) (value : Term)
  | disequalityIsNotContradiction (op : Op) (d : LinearComb)
  | wrongNumberOfArgs (expected actual : Nat)
  deriving DecidableEq, Repr

/-- `ProofArg`: a term argument or a named assignment. -/
inductive ProofArg where
  | term (t : Term)
  | assign (name : String) (value : Term)
  deriving DecidableEq, Repr

/-- The operator negation table inside `negate_disequality`. -/
def negateOperator : Op → Option Op
  | .lt => some .ge
  | .gt => some .le
  | .le => some .gt
  | .ge => some .lt
  | _ => none

/-- The operator test `matches!(op, GreaterEq | LessEq | GreaterThan |
LessThan | Equals)` inside `negate_disequality`. -/
def isDiseqOp : Op → Bool
  | .ge | .le | .gt | .lt | .eq => true
  | _ => false

/-- The `inner` helper of `negate_disequality`: strip one negation and keep
the operator, or negate the operator of an unnegated application. The Rust
`if let Some(Term::Op(..))` chain falls through to the `else if` branch
only when `remove_negation` fails to match `Some(Term::Op(..))`. -/
def diseqInner (t : Term) : Option (Op × List Term) :=
  match t.removeNegation with
  | some (.op o args) => if isDiseqOp o then some (o, args) else none
  | some _ =>
    match t with
    | .op o args => (negateOperator o).map (fun o2 => (o2, args))
    | _ => none
  | none =>
    match t with
    | .op o args => (negateOperator o).map (fun o2 => (o2, args))
    | _ => none

/-- `negate_disequality`: negation of a disequality term as an operator and
the two sides as linear combinations. -/
def negateDisequality (t : Term) :
    Except CheckerError (Op × LinearComb × LinearComb) :=
  match diseqInner t with
  | none => .error (.invalidDisequalityOp t)
  | some (o, args) =>
    match args with
    | [a, b] => .ok (o, LinearComb.fromTerm a, LinearComb.fromTerm b)
    | _ => .error (.tooManyArgsInDisequality t)

/-- The `is_integer` computation at the top of `strengthen`: `true` when
`a` is zero; the canonical `is_integer` test on the constant when `a` is
one; otherwise divisibility of the raw numerator of `constant * a` by its
raw denominator. -/
def strengthenIsInteger (d : LinearComb) (a : Rat2) : Bool :=
  if a.isZero then true
  else if a.isOne then d.const.isInteger
  else
    let constant := d.const.rawMul a
    intIsMultipleOf constant.num constant.den

/-- `strengthen`, `linear_arithmetic.rs` lines 215-271. The `<`/`<=` arms
are `unreachable!()` in the source (they panic); they are embedded as the
identity. `floor() + 1` and `floor() + increment` keep denominator one. -/
def strengthen (op : Op) (d : LinearComb) (a : Rat2) : Op × LinearComb :=
  let isInteger : Bool := strengthenIsInteger d a
  match op with
  | .ge =>
    if isInteger then (Op.ge, d)
    else (Op.ge, { d with const := ⟨(d.const.floorRat).num + 1, 1⟩ })
  | .gt =>
    if isInteger then
      let increment := (d.coefficientsGcd).getD 1
      (Op.ge, { d with const := ⟨(d.const.floorRat).num + increment, 1⟩ })
    else (Op.ge, { d with const := ⟨(d.const.floorRat).num + 1, 1⟩ })
  | .lt => (op, d)
  | .le => (op, d)
  | _ => (op, d)

/-- Steps 1-5 of `la_generic` on a single conclusion term and its
argument: negate, move constants right, flip, strengthen, multiply. -/
def laGenericItem (phi : Term) (a : Rat2) : Except CheckerError (Op × LinearComb) :=
  match negateDisequality phi with
  | .error e => .error e
  | .ok (op0, s1, s2) =>
    let d0 := s1.sub s2
    let d1 : LinearComb := { d0 with const := d0.const.neg }
    let od :=
      if op0 = Op.lt then (Op.gt, d1.neg)
      else if op0 = Op.le then (Op.ge, d1.neg)
      else (op0, d1)
    let od2 := strengthen od.1 od.2 a
    let a2 := if od2.1 = Op.eq then a else a.abs
    .ok (od2.1, od2.2.mul a2)

/-- One step of `la_generic`'s `try_fold`: accumulate the disequality and
update the operator (`>=` dominates; `=` upgraded to `>` by a `>` summand). -/
def laGenericStep (acc : Op × LinearComb) (pa : Term × Rat2) :
    Except CheckerError (Op × LinearComb) :=
  match laGenericItem pa.1 pa.2 with
  | .error e => .error e
  | .ok (op, diseq) =>
    let newOp :=
      match acc.1, op with
      | _, .ge => Op.ge
      | .eq, .gt => Op.gt
      | _, _ => acc.1
    .ok (newOp, acc.2.add diseq)

/-- Step 6 of `la_generic`: fold all conclusion/argument pairs into a
single accumulated disequality, starting from `(Equals, empty)`. -/
def laGenericFinal (conclusion : List Term) (args : List Rat2) :
    Except CheckerError (Op × LinearComb) :=
  (conclusion.zip args).foldlM laGenericStep (Op.eq, LinearComb.empty)

/-- The truth test of step 7: whether the operator encompasses the actual
relation between `0` and the right side. `Ratio::cmp` against `0/1`, under
the library's positive-denominator invariant, is the comparison of `0` with
the raw numerator. -/
def isDisequalityTrue (op : Op) (c : Rat2) : Bool :=
  if 0 < c.num then op = Op.lt || op = Op.le
  else if c.num = 0 then op = Op.le || op = Op.ge || op = Op.eq
  else op = Op.gt || op = Op.ge

/-- The argument conversion at the top of `la_generic`: each argument must
be a term with a numeric value. -/
def parseLaArgs : List ProofArg → Except CheckerError (List Rat2)
  | [] => .ok []
  | ProofArg.term a :: rest =>
    match a.asFraction with
    | some f =>
      match parseLaArgs rest with
      | .ok fs => .ok (f :: fs)
      | .error e => .error e
    | none => .error (.expectedAnyNumber a)
  | ProofArg.assign n v :: _ => .error (.expectedTermStyleArg n v)

/-- `la_generic`, `linear_arithmetic.rs` lines 273-355. -/
def laGeneric (conclusion : List Term) (args : List ProofArg) :
    Except CheckerError Unit :=
  if args.length ≠ conclusion.length then
    .error (.wrongNumberOfArgs conclusion.length args.length)
  else
    match parseLaArgs args with
    | .error e => .error e
    | .ok argsR =>
      match laGenericFinal conclusion argsR with
      | .error e => .error e
      | .ok (op, d) =>
        if d.map.isEmpty && !(isDisequalityTrue op d.const) then .ok ()
        else .error (.disequalityIsNotContradiction op d)

/-- The plain `+1` strengthening that the spec contrasts with the GCD-aware
one ("a test case exists where the plain `+1` strengthening fails but the
`+gcd` version succeeds"). It follows the spec's words: identical to
`strengthen` except that the integer `>` case also increments the floored
constant by 1 instead of by the coefficients' GCD. -/
def strengthenPlain (op : Op) (d : LinearComb) (a : Rat2) : Op × LinearComb :=
  let isInteger : Bool := strengthenIsInteger d a
  match op with
  | .ge =>
    if isInteger then (Op.ge, d)
    else (Op.ge, { d with const := ⟨(d.const.floorRat).num + 1, 1⟩ })
  | .gt => (Op.ge, { d with const := ⟨(d.const.floorRat).num + 1, 1⟩ })
  | .lt => (op, d)
  | .le => (op, d)
  | _ => (op, d)

/-- `la_generic`'s per-term pipeline with `strengthenPlain` in place of
`strengthen`; used only to compare the two strengthenings. -/
def laGenericItemPlain (phi : Term) (a : Rat2) :
    Except CheckerError (Op × LinearComb) :=
  match negateDisequality phi with
  | .error e => .error e
  | .ok (op0, s1, s2) =>
    let d0 := s1.sub s2
    let d1 : LinearComb := { d0 with const := d0.const.neg }
    let od :=
      if op0 = Op.lt then (Op.gt, d1.neg)
      else if op0 = Op.le then (Op.ge, d1.neg)
      else (op0, d1)
    let od2 := strengthenPlain od.1 od.2 a
    let a2 := if od2.1 = Op.eq then a else a.abs
    .ok (od2.1, od2.2.mul a2)

/-- `la_generic`'s accumulation with the plain strengthening. -/
def laGenericStepPlain (acc : Op × LinearComb) (pa : Term × Rat2) :
    Except CheckerError (Op × LinearComb) :=
  match laGenericItemPlain pa.1 pa.2 with
  | .error e => .error e
  | .ok (op, diseq) =>
    let newOp :=
      match acc.1, op with
      | _, .ge => Op.ge
      | .eq, .gt => Op.gt
      | _, _ => acc.1
    .ok (newOp, acc.2.add diseq)

/-- `la_generic` with the plain strengthening, for comparison. -/
def laGenericPlain (conclusion : List Term) (args : List ProofArg) :
    Except CheckerError Unit :=
  if args.length ≠ conclusion.length then
    .error (.wrongNumberOfArgs conclusion.length args.length)
  else
    match parseLaArgs args with
    | .error e => .error e
    | .ok argsR =>
      match (conclusion.zip argsR).foldlM laGenericStepPlain
          (Op.eq, LinearComb.empty) with
      | .error e => .error e
      | .ok (op, d) =>
        if d.map.isEmpty && !(isDisequalityTrue op d.const) then .ok ()
        else .error (.disequalityIsNotContradiction op d)

/-! ### The minimal engine: proof commands, the `or` and `resolution` rules,
and rule dispatch (`src/src/checker/mod.rs`). -/

/-- `ProofCommand` of the minimal engine: an `Assume` holding one term, or
a `Step` with its clause, rule name, premise indices and arguments. -/
inductive ProofCommand where
  | assume (term : Term)
  | step (clause : List Term) (rule : String) (premises : List Nat)
      (args : List ProofArg)
  deriving DecidableEq, Repr

/-- `Polarity`: the polarities a term was encountered under. -/
inductive Polarity where
  | positive | negative | both
  deriving DecidableEq, Repr

/-- `to_positive`: strip one leading negation and report the old polarity.
The source indexes `args[0]` of a `Not` term, panicking when the argument
list is empty; the empty `Not` is embedded in the catch-all arm. -/
def toPositive : Term → Term × Polarity
  | .op .not (t :: _) => (t, .negative)
  | t => (t, .positive)

/-- An `Assume` premise is read as a one-term clause; a `Step` premise
contributes its clause. -/
def premiseClause : ProofCommand → List Term
  | .assume t => [t]
  | .step clause _ _ _ => clause

/-- Association-list lookup standing in for `HashMap::get`. -/
def alookup : List (Term × Polarity) → Term → Option Polarity
  | [], _ => none
  | (k, p) :: rest, t => if k = t then some p else alookup rest t

/-- The value update of `HashMap::Entry::insert` used by `resolution`: set
the entry at key `k` to `Both`, leaving every other entry unchanged. -/
def setBoth (k : Term) (x : Term × Polarity) : Term × Polarity :=
  if x.1 = k then (x.1, Polarity.both) else x

/-- The `encountered_polarities` entry update of `resolution`: insert a
missing term, and upgrade an existing entry to `Both` when it is neither
`Both` already nor equal to the new polarity. -/
def recordTerm (m : List (Term × Polarity)) (e : Term × Polarity) :
    List (Term × Polarity) :=
  match alookup m e.1 with
  | none => m ++ [e]
  | some q =>
    if q ≠ Polarity.both ∧ q ≠ e.2 then m.map (setBoth e.1)
    else m

/-- The polarity map built by `resolution`'s first loop over all premise
terms (already normalized by `to_positive`). -/
def buildMap (l : List (Term × Polarity)) : List (Term × Polarity) :=
  l.foldl recordTerm []

/-- The list of normalized `(positive form, polarity)` pairs of every term
of every premise, in premise order. -/
def premiseTerms (premises : List ProofCommand) : List (Term × Polarity) :=
  (premises.flatMap premiseClause).map toPositive

/-- `rules::resolution`, `src/src/checker/mod.rs` lines 143-208. -/
def resolution (clause : List Term) (premises : List ProofCommand) : Bool :=
  let m := buildMap (premiseTerms premises)
  let expectedLen := (m.filter (fun e => e.2 ≠ Polarity.both)).length
  clause.length = expectedLen &&
    clause.all (fun t => alookup m (toPositive t).1 = some (toPositive t).2)

/-- `rules::or`, `src/src/checker/mod.rs` lines 85-106: exactly one
premise, whose term (an `Assume`'s term, or the sole term of a `Step`'s
clause) must be an `Or` application whose arguments equal the clause. -/
def orRule (clause : List Term) (premises : List ProofCommand) : Bool :=
  match premises with
  | [p] =>
    let orTerm? : Option Term :=
      match p with
      | .assume t => some t
      | .step cl _ _ _ => match cl with | [t] => some t | _ => none
    match orTerm? with
    | none => false
    | some t =>
      match t with
      | .op .or args => decide (args = clause)
      | _ => false
  | _ => false

/-- The rules known to the minimal engine's registry. -/
inductive KnownRule where
  | or | eqCongruent | resolution
  deriving DecidableEq, Repr

/-- The outcome of `ProofChecker::get_rule`: a rule function, or the
`todo!()` arm, which panics the process. -/
inductive GetRuleResult where
  | rule (r : KnownRule)
  | panicTodo
  deriving DecidableEq, Repr

/-- `ProofChecker::get_rule`, `src/src/checker/mod.rs` lines 35-42: the
name-to-rule registry; every name outside the registry hits `todo!()`. -/
def getRule : String → GetRuleResult
  | "or" => .rule .or
  | "eq_congruent" => .rule .eqCongruent
  | "resolution" => .rule .resolution
  | _ => .panicTodo

/-! ### The `lia_generic` bridge (`src/alethe-proof-checker/src/checker/lia_generic.rs`)
and the trivial `lia_generic` rule (`linear_arithmetic.rs` lines 357-366). -/

/-- The error kinds of the external-solver bridge (`LiaGenericError`). -/
inductive LiaGenericError where
  | failedSpawnCvc5
  | failedWriteToCvc5Stdin
  | failedWaitForCvc5
  | cvc5Timeout
  | cvc5NonZeroExitCode (code : Option Int)
  | cvc5OutputNotUnsat
  | cvc5GaveInvalidOutput
  | innerProofError
  deriving DecidableEq, Repr

/-- Modelled from the spec: the `Elaborator` (its source is not under
`src/`) accumulates rewritten commands; `unchanged` records a step as kept
as-is, and the success path of the bridge splices the returned sub-proof. -/
structure Elaborator where
  unchangedSteps : List (List Term)
  insertedProofs : List (List Term)
  deriving DecidableEq, Repr

/-- Modelled from the spec: `Elaborator::unchanged` records the step's
conclusion as unchanged. -/
def Elaborator.unchanged (e : Elaborator) (conclusion : List Term) : Elaborator :=
  { e with unchangedSteps := e.unchangedSteps ++ [conclusion] }

/-- Modelled from the spec: `insert_cvc5_proof` splices the returned
sub-proof into the elaborator (the splice itself is irrelevant to the
embedded claims; only the fact that the success path inserts is kept). -/
def Elaborator.insertProof (e : Elaborator) (conclusion : List Term) : Elaborator :=
  { e with insertedProofs := e.insertedProofs ++ [conclusion] }

/-- The outcome of the bridge: whether it returned `true` (the step is a
hole, assumed valid), whether a warning was logged, and the elaborator
state after the call. -/
structure LiaBridgeResult where
  isHole : Bool
  warned : Bool
  elaborator : Option Elaborator
  deriving DecidableEq, Repr

/-- `lia_generic` (the cvc5 bridge), `lia_generic.rs` lines 26-49, with the
external call `get_cvc5_proof` abstracted into its result `oracle`: on any
error the bridge warns, records the step unchanged in the elaborator when
one is present, and returns `true`; on success it splices the returned
proof and returns `false`. -/
def liaGenericBridge (oracle : Except LiaGenericError (List ProofCommand))
    (conclusion : List Term) (elab? : Option Elaborator) : LiaBridgeResult :=
  match oracle with
  | .error _ =>
    { isHole := true, warned := true,
      elaborator := elab?.map (fun e => e.unchanged conclusion) }
  | .ok _cmds =>
    { isHole := false, warned := false,
      elaborator := elab?.map (fun e => e.insertProof conclusion) }

/-- Modelled from the spec: the engine (its dispatch for this rule is not
under `src/`) accepts a `lia_generic` step checked through the bridge
regardless of the bridge's outcome; the returned flag only marks the step
as a hole, and solver errors surface as a warning, never as a check
failure. -/
def engineAcceptsLiaStep (oracle : Except LiaGenericError (List ProofCommand))
    (conclusion : List Term) (elab? : Option Elaborator) : Bool :=
  match liaGenericBridge oracle conclusion elab? with
  | _ => true

/-- The `lia_generic` rule of `linear_arithmetic.rs` lines 357-366: it
ignores its input, logs a warning and accepts. -/
def liaGenericRule (_conclusion : List Term) (_args : List ProofArg) :
    Except CheckerError Unit :=
  .ok ()

/-! ### Specification-side notions

These definitions express the spec's claims declaratively; theorems below
relate them to the embedded code. -/

/-- The claimed `LinearComb` invariant: no key of the coefficient map has a
value whose `is_zero` test holds. -/
def NoZeros (lc : LinearComb) : Prop :=
  ∀ e ∈ lc.map, e.2.isZero = false

/-- The mathematical relation `x (op) y` on rational values, the
specification-side reading of a disequality operator. -/
def opRel (op : Op) (x y : ℚ) : Prop :=
  match op with
  | .lt => x < y
  | .le => x ≤ y
  | .gt => y < x
  | .ge => y ≤ x
  | .eq => x = y
  | _ => False

/-- The polarity with which a term was seen across the normalized premise
terms, determined by membership alone: `Both` when seen under both
polarities, the single polarity when seen under exactly one, and `none`
when never seen. -/
def finalPolarity (l : List (Term × Polarity)) (t : Term) : Option Polarity :=
  if (t, Polarity.positive) ∈ l then
    if (t, Polarity.negative) ∈ l then some Polarity.both
    else some Polarity.positive
  else if (t, Polarity.negative) ∈ l then some Polarity.negative
  else none

/-- The number of distinct terms seen under exactly one polarity. -/
def resolvedCount (l : List (Term × Polarity)) : Nat :=
  ((l.map Prod.fst).dedup.filter
    (fun t => decide (finalPolarity l t ≠ some Polarity.both))).length

/-- Spec scenario 5: the integer `la_generic` step
`(cl (not (<= (- 1) n)) (not (<= (- 1) (+ n m))) (<= (- 2) (* 2 n))
(not (<= m 1)))` that requires the GCD-aware strengthening. -/
def scenario5 : List Term :=
  [Term.op .not [Term.op .le [Term.op .sub [Term.int 1], Term.var "n"]],
   Term.op .not [Term.op .le [Term.op .sub [Term.int 1],
     Term.op .add [Term.var "n", Term.var "m"]]],
   Term.op .le [Term.op .sub [Term.int 2],
     Term.op .mult [Term.int 2, Term.var "n"]],
   Term.op .not [Term.op .le [Term.var "m", Term.int 1]]]

/-- The arguments `(1 1 1 1)` of spec scenario 5. -/
def scenario5Args : List ProofArg :=
  [.term (Term.int 1), .term (Term.int 1), .term (Term.int 1),
   .term (Term.int 1)]

/-! ### Helper lemmas -/

theorem noZeros_insertPair {m : List (Term × Rat2)} {k : Term} {v : Rat2}
    (hm : ∀ e ∈ m, e.2.isZero = false) (hv : v.isZero = false) :
    ∀ e ∈ LinearComb.insertPair m k v, e.2.isZero = false := by
  induction m with
  | nil =>
    intro e he
    simp only [LinearComb.insertPair, List.mem_singleton] at he
    subst he; exact hv
  | cons hd tl ih =>
    intro e he
    by_cases hk : hd.1 = k
    · rw [show (hd :: tl : List (Term × Rat2)) = (hd.1, hd.2) :: tl by rfl] at he
      simp only [LinearComb.insertPair, hk, if_pos rfl] at he
      by_cases hz : (hd.2.rawAdd v).isZero = true
      · rw [if_pos hz] at he
        exact hm e (List.mem_cons_of_mem hd he)
      · rw [if_neg hz] at he
        rcases List.mem_cons.mp he with h | h
        · subst h
          simpa using Bool.eq_false_iff.mpr hz
        · exact hm e (List.mem_cons_of_mem hd h)
    · rw [show (hd :: tl : List (Term × Rat2)) = (hd.1, hd.2) :: tl by rfl] at he
      simp only [LinearComb.insertPair, hk, if_neg hk] at he
      rcases List.mem_cons.mp he with h | h
      · subst h; exact hm hd (List.mem_cons_self hd tl)
      · exact ih (fun e' he' => hm e' (List.mem_cons_of_mem hd he')) e h

theorem noZeros_insertFold {other : List (Term × Rat2)}
    (ho : ∀ e ∈ other, e.2.isZero = false) :
    ∀ {m : List (Term × Rat2)}, (∀ e ∈ m, e.2.isZero = false) →
      ∀ e ∈ other.foldl (fun acc x => LinearComb.insertPair acc x.1 x.2) m,
        e.2.isZero = false := by
  induction other with
  | nil => intro m hm e he; exact hm e he
  | cons hd tl ih =>
    intro m hm e he
    have hhd : hd.2.isZero = false := ho hd (List.mem_cons_self hd tl)
    have htl : ∀ e ∈ tl, e.2.isZero = false :=
      fun e' he' => ho e' (List.mem_cons_of_mem hd he')
    exact ih htl (noZeros_insertPair hm hhd) e he

/-! ### C3: the no-zero-coefficients invariant -/

/-- C3 (counterexample): flattening the term `(* x 0)` stores the key `x`
with the raw coefficient `0/1`, so a key of the map is mapped to zero after
a single `from_term`, refuting the claimed invariant. -/
theorem C3_fromTerm_zero_entry :
    LinearComb.fromTerm (Term.op .mult [Term.var "x", Term.int 0]) =
      ⟨[(Term.var "x", ⟨0, 1⟩)], ⟨0, 1⟩⟩ ∧
    Rat2.isZero ⟨0, 1⟩ = true := by
  constructor
  · rfl
  · rfl

theorem noZeros_insertPair_mem {m : List (Term × Rat2)} {k : Term}
    {v : Rat2} (hm : ∀ e ∈ m, e.2.isZero = false)
    (hk : k ∈ m.map Prod.fst) :
    ∀ e ∈ LinearComb.insertPair m k v, e.2.isZero = false := by
  induction m with
  | nil => simp at hk
  | cons hd tl ih =>
    intro e he
    by_cases hkk : hd.1 = k
    · rw [show (hd :: tl : List (Term × Rat2)) = (hd.1, hd.2) :: tl by rfl]
        at he
      simp only [LinearComb.insertPair, hkk, if_pos rfl] at he
      by_cases hz : (hd.2.rawAdd v).isZero = true
      · rw [if_pos hz] at he
        exact hm e (List.mem_cons_of_mem hd he)
      · rw [if_neg hz] at he
        rcases List.mem_cons.mp he with h | h
        · subst h
          simpa using Bool.eq_false_iff.mpr hz
        · exact hm e (List.mem_cons_of_mem hd h)
    · rw [show (hd :: tl : List (Term × Rat2)) = (hd.1, hd.2) :: tl by rfl]
        at he
      simp only [LinearComb.insertPair, hkk, if_neg hkk] at he
      rcases List.mem_cons.mp he with h | h
      · subst h
        exact hm hd (List.mem_cons_self hd tl)
      · have hk2 : k ∈ tl.map Prod.fst := by
          rw [List.map_cons, List.mem_cons] at hk
          rcases hk with h2 | h2
          · exact absurd h2.symm hkk
          · exact h2
        exact ih (fun e' he' => hm e' (List.mem_cons_of_mem hd he')) hk2 e h

/-- C3 (amended): the no-zero invariant is preserved by `neg`, `mul`, by
`insert` whenever the inserted value is non-zero or the key is already
present (the Occupied branch checks the summed coefficient for zero), and
by `add`/`sub` on operands that satisfy it; it fails only when a zero
value is inserted for an absent key, which `from_term` does when a
multiplication by a zero literal occurs (see the counterexample). -/
theorem C3_noZeros_preserved (lc other : LinearComb) (k : Term) (v s : Rat2) :
    (NoZeros lc → (v.isZero = false ∨ k ∈ lc.map.map Prod.fst) →
      NoZeros (lc.insert k v))
    ∧ (NoZeros lc → NoZeros other → NoZeros (lc.add other))
    ∧ (NoZeros lc → NoZeros other → NoZeros (lc.sub other))
    ∧ (NoZeros lc → NoZeros lc.neg)
    ∧ (NoZeros lc → NoZeros (lc.mul s)) := by
  have hneg : ∀ lc' : LinearComb, NoZeros lc' → NoZeros lc'.neg := by
    intro lc' h e he
    simp only [LinearComb.neg, List.mem_map] at he
    obtain ⟨x, hx, rfl⟩ := he
    have := h x hx
    simp only [Rat2.isZero, Rat2.neg, decide_eq_false_iff_not] at this ⊢
    omega
  have hadd : ∀ lc' other' : LinearComb,
      NoZeros lc' → NoZeros other' → NoZeros (lc'.add other') := by
    intro lc' other' h1 h2 e he
    exact noZeros_insertFold h2 h1 e he
  refine ⟨?_, hadd lc other, ?_, hneg lc, ?_⟩
  · intro h hv e he
    rcases hv with hv | hv
    · exact noZeros_insertPair h hv e he
    · exact noZeros_insertPair_mem h hv e he
  · intro h1 h2
    exact hadd lc other.neg h1 (hneg other h2)
  · intro h e he
    unfold LinearComb.mul at he
    by_cases hz : s.isZero = true
    · simp [hz] at he
    · by_cases ho : s.isOne = true
      · simp only [Bool.not_eq_true] at hz
        simp only [hz, ho, Bool.false_eq_true, if_false, if_true] at he
        exact h e he
      · simp only [Bool.not_eq_true] at hz ho
        simp only [hz, ho, Bool.false_eq_true, if_false, List.mem_map] at he
        obtain ⟨x, hx, rfl⟩ := he
        have h1 := h x hx
        simp only [Rat2.isZero, Rat2.rawMul, decide_eq_false_iff_not] at h1 ⊢
        simp only [Rat2.isZero, decide_eq_false_iff_not] at hz
        exact mul_ne_zero h1 hz

/-- C3 (witness): the amended invariant applied at concrete inputs, once
for a non-zero insert on an absent key and once for a zero-value insert on
a present key. -/
theorem C3_noZeros_preserved_witness :
    NoZeros (LinearComb.insert ⟨[], ⟨0, 1⟩⟩ (Term.var "x") ⟨2, 1⟩) ∧
    NoZeros (LinearComb.insert ⟨[(Term.var "x", ⟨2, 1⟩)], ⟨0, 1⟩⟩
      (Term.var "x") ⟨0, 1⟩) := by
  constructor
  · have h := (C3_noZeros_preserved ⟨[], ⟨0, 1⟩⟩ ⟨[], ⟨0, 1⟩⟩
      (Term.var "x") ⟨2, 1⟩ ⟨0, 1⟩).1
    refine h ?_ (Or.inl rfl)
    intro e he; simp at he
  · have h := (C3_noZeros_preserved ⟨[(Term.var "x", ⟨2, 1⟩)], ⟨0, 1⟩⟩
      ⟨[], ⟨0, 1⟩⟩ (Term.var "x") ⟨0, 1⟩ ⟨0, 1⟩).1
    refine h ?_ (Or.inr (by decide))
    intro e he
    simp only [List.mem_singleton] at he
    subst he; rfl

/-! ### C5: multiplicative flattening in `from_term` -/

/-- C5 (counterexample): flattening `(* (* x y) 5)` inserts the inner
`Mult` term (neither operand a literal) with the running coefficient `5`,
not with coefficient `1` as claimed. -/
theorem C5_inner_mult_coefficient :
    LinearComb.fromTerm
        (Term.op .mult
          [Term.op .mult [Term.var "x", Term.var "y"], Term.int 5]) =
      ⟨[(Term.op .mult [Term.var "x", Term.var "y"], ⟨5, 1⟩)], ⟨0, 1⟩⟩ ∧
    (⟨5, 1⟩ : Rat2) ≠ Rat2.one ∧ Rat2.val ⟨5, 1⟩ ≠ 1 := by
  refine ⟨rfl, by decide, by norm_num [Rat2.val]⟩

/-- C5 (amended): in the flattening of a binary `Mult`, a literal second
operand raw-multiplies the running coefficient and the first operand is
recursed into; two literal operands are folded into the constant; and when
neither operand is a literal the whole `Mult` term is inserted with the
*running* coefficient — in particular, when the `Mult` term is itself the
argument of `from_term`, that coefficient is `1`. -/
theorem C5_mult_flattening (lc : LinearComb) (coeff : Rat2) (t1 t2 : Term) :
    (∀ c, t1.asFraction = none → t2.asFraction = some c →
      LinearComb.addTerm lc (.op .mult [t1, t2]) coeff =
        LinearComb.addTerm lc t1 (coeff.rawMul c))
    ∧ (∀ c1 c2, t1.asFraction = some c1 → t2.asFraction = some c2 →
      LinearComb.addTerm lc (.op .mult [t1, t2]) coeff =
        { lc with const := lc.const.rawAdd ((coeff.rawMul c1).rawMul c2) })
    ∧ (t1.asFraction = none → t2.asFraction = none →
      LinearComb.addTerm lc (.op .mult [t1, t2]) coeff =
        lc.insert (.op .mult [t1, t2]) coeff)
    ∧ (t1.asFraction = none → t2.asFraction = none →
      LinearComb.fromTerm (.op .mult [t1, t2]) =
        LinearComb.empty.insert (.op .mult [t1, t2]) Rat2.one) := by
  have hlit : ∀ (t : Term) (c : Rat2), t.asFraction = some c →
      ∀ (lc' : LinearComb) (k : Rat2),
        LinearComb.addTerm lc' t k = { lc' with const := lc'.const.rawAdd (k.rawMul c) } := by
    intro t c hc lc' k
    cases t with
    | int n =>
      simp only [Term.asFraction, Option.some.injEq] at hc
      subst hc
      rfl
    | real n d =>
      simp only [Term.asFraction, Option.some.injEq] at hc
      subst hc
      rfl
    | var s => simp [Term.asFraction] at hc
    | op o args => simp [Term.asFraction] at hc
  have hmult : ∀ k : Rat2,
      LinearComb.addTerm lc (.op .mult [t1, t2]) k =
        match t1.asFraction, t2.asFraction with
        | none, some c => LinearComb.addTerm lc t1 (k.rawMul c)
        | some c, _ => LinearComb.addTerm lc t2 (k.rawMul c)
        | none, none => lc.insert (.op .mult [t1, t2]) k := by
    intro k
    rw [LinearComb.addTerm]
  refine ⟨?_, ?_, ?_, ?_⟩
  · intro c h1 h2
    rw [hmult, h1, h2]
  · intro c1 c2 h1 h2
    rw [hmult, h1]
    exact hlit t2 c2 h2 lc (coeff.rawMul c1)
  · intro h1 h2
    rw [hmult, h1, h2]
  · intro h1 h2
    show LinearComb.addTerm LinearComb.empty (.op .mult [t1, t2]) Rat2.one = _
    rw [LinearComb.addTerm, h1, h2]

/-- C5 (witness): the amended statement applied to `x * y` with running
coefficient one. -/
theorem C5_mult_flattening_witness :
    LinearComb.addTerm LinearComb.empty
        (.op .mult [Term.var "x", Term.var "y"]) Rat2.one =
      LinearComb.empty.insert (.op .mult [Term.var "x", Term.var "y"])
        Rat2.one :=
  (C5_mult_flattening LinearComb.empty Rat2.one (Term.var "x")
    (Term.var "y")).2.2.1 rfl rfl

/-! ### C6: integrality tests on raw rationals -/

/-- C6 (counterexample): on the raw, unreduced integer `4/2` the canonical
`is_integer` predicate used by the `a = 1` branch of `strengthen` and by
`coefficients_gcd` answers `false` although the numerator is divisible by
the denominator: `strengthen` bumps the constant of a `>=` disequality
from `4/2` (value 2) to `3`, and `coefficients_gcd` returns `none`;
neither test decides integrality by divisibility. -/
theorem C6_raw_integer_divergence :
    Rat2.isInteger ⟨4, 2⟩ = false ∧
    intIsMultipleOf 4 2 = true ∧
    strengthen Op.ge ⟨[], ⟨4, 2⟩⟩ Rat2.one = (Op.ge, ⟨[], ⟨3, 1⟩⟩) ∧
    LinearComb.coefficientsGcd ⟨[], ⟨4, 2⟩⟩ = none := by
  refine ⟨rfl, rfl, rfl, rfl⟩

/-- C6 (amended): only the `a ∉ {0, 1}` branch of `strengthen` tests
integrality by divisibility of the raw numerator by the raw denominator;
the `a = 1` branch and `coefficients_gcd` use the canonical
denominator-equals-one predicate, which disagrees with divisibility on
unreduced fractions. -/
theorem C6_integrality_tests (d : LinearComb) (a : Rat2)
    (h0 : a.isZero = false) (h1 : a.isOne = false) :
    strengthenIsInteger d a =
      intIsMultipleOf (d.const.rawMul a).num (d.const.rawMul a).den
    ∧ strengthenIsInteger d Rat2.one = d.const.isInteger
    ∧ (∀ lc : LinearComb, lc.const.isInteger = false →
        LinearComb.coefficientsGcd lc = none) := by
  refine ⟨?_, rfl, ?_⟩
  · unfold strengthenIsInteger
    rw [h0, h1]
    simp
  · intro lc h
    unfold LinearComb.coefficientsGcd
    rw [h]
    simp

/-- C6 (witness): the amended statement applied at `d = ([], 1/1)`,
`a = 2/1`. -/
theorem C6_integrality_tests_witness :
    strengthenIsInteger ⟨[], ⟨1, 1⟩⟩ ⟨2, 1⟩ =
      intIsMultipleOf (Rat2.rawMul ⟨1, 1⟩ ⟨2, 1⟩).num
        (Rat2.rawMul ⟨1, 1⟩ ⟨2, 1⟩).den
    ∧ strengthenIsInteger ⟨[], ⟨1, 1⟩⟩ Rat2.one = Rat2.isInteger ⟨1, 1⟩
    ∧ (∀ lc : LinearComb, lc.const.isInteger = false →
        LinearComb.coefficientsGcd lc = none) :=
  C6_integrality_tests ⟨[], ⟨1, 1⟩⟩ ⟨2, 1⟩ rfl rfl

/-! ### C9: unknown-rule dispatch -/

/-- C9: dispatching a rule name outside the registry hits the `todo!()`
arm (a process panic), not a typed `UnknownRule` error, and the minimal
engine has no skip-unknown mode; the three registered names dispatch to
their rules. -/
theorem C9_unknown_rule_panics :
    getRule "la_generic" = GetRuleResult.panicTodo ∧
    getRule "hole" = GetRuleResult.panicTodo ∧
    getRule "or" = GetRuleResult.rule KnownRule.or ∧
    getRule "eq_congruent" = GetRuleResult.rule KnownRule.eqCongruent ∧
    getRule "resolution" = GetRuleResult.rule KnownRule.resolution := by
  refine ⟨rfl, rfl, rfl, rfl, rfl⟩

/-! ### C8: external-solver failure handling -/

/-- C8: when spawning cvc5 fails the bridge warns, records the step as
unchanged in the elaborator when one is present, and returns with the step
treated as an assumed-valid hole; no solver error ever makes the engine
reject the step, and the plain `lia_generic` rule always accepts. -/
theorem C8_spawn_failure_accepts (conclusion : List Term) (e : Elaborator) :
    (liaGenericBridge (.error .failedSpawnCvc5) conclusion (some e)).warned
      = true
    ∧ (liaGenericBridge (.error .failedSpawnCvc5) conclusion (some e)).isHole
      = true
    ∧ (liaGenericBridge (.error .failedSpawnCvc5) conclusion
        (some e)).elaborator = some (e.unchanged conclusion)
    ∧ (∀ (err : LiaGenericError) (el : Option Elaborator),
        engineAcceptsLiaStep (.error err) conclusion el = true)
    ∧ liaGenericRule conclusion [] = .ok () :=
  ⟨rfl, rfl, rfl, fun _ _ => rfl, rfl⟩

/-! ### C2: GCD-aware strengthening -/

/-- C2: in the integer `>` case `strengthen` replaces the constant by
`floor(constant) + g` with `g` the coefficients' GCD (fallback 1) and
returns `>=`; on spec scenario 5 the GCD-aware rule accepts while the
plain `+1` strengthening leaves a non-contradictory `0 >= 0` and rejects. -/
theorem C2_gcd_strengthening (d : LinearComb) (a : Rat2)
    (h : strengthenIsInteger d a = true) :
    strengthen Op.gt d a =
      (Op.ge, { d with const :=
        ⟨d.const.floorRat.num + d.coefficientsGcd.getD 1, 1⟩ })
    ∧ laGeneric scenario5 scenario5Args = .ok ()
    ∧ laGenericPlain scenario5 scenario5Args =
        .error (.disequalityIsNotContradiction Op.ge ⟨[], ⟨0, 1⟩⟩) := by
  refine ⟨?_, rfl, rfl⟩
  simp [strengthen, h]

/-- C2 (witness): the strengthening equation applied at the disequality
`-2n > 2` of scenario 5 with argument 1. -/
theorem C2_gcd_strengthening_witness :
    strengthen Op.gt ⟨[(Term.var "n", ⟨-2, 1⟩)], ⟨2, 1⟩⟩ ⟨1, 1⟩ =
      (Op.ge, { map := [(Term.var "n", ⟨-2, 1⟩)], const :=
        ⟨(Rat2.floorRat ⟨2, 1⟩).num +
          (LinearComb.coefficientsGcd ⟨[(Term.var "n", ⟨-2, 1⟩)], ⟨2, 1⟩⟩).getD 1,
          1⟩ })
    ∧ laGeneric scenario5 scenario5Args = .ok ()
    ∧ laGenericPlain scenario5 scenario5Args =
        .error (.disequalityIsNotContradiction Op.ge ⟨[], ⟨0, 1⟩⟩) :=
  C2_gcd_strengthening ⟨[(Term.var "n", ⟨-2, 1⟩)], ⟨2, 1⟩⟩ ⟨1, 1⟩ rfl

/-! ### C1: the final contradiction check of `la_generic` -/

theorem isDisequalityTrue_iff (op : Op) (c : Rat2) (hd : 0 < c.den) :
    isDisequalityTrue op c = true ↔ opRel op 0 c.val := by
  have hdq : (0 : ℚ) < (c.den : ℚ) := by exact_mod_cast hd
  have hlt : (0 < c.val) ↔ (0 < c.num) := by
    rw [Rat2.val, lt_div_iff₀ hdq, zero_mul, Int.cast_pos]
  have hgt : (c.val < 0) ↔ (c.num < 0) := by
    rw [Rat2.val, div_lt_iff₀ hdq, zero_mul, Int.cast_lt_zero]
  rcases lt_trichotomy (0 : Int) c.num with h | h | h
  · have h1 : 0 < c.val := hlt.mpr h
    cases op <;>
      simp [isDisequalityTrue, opRel, h, h1, h1.le, h1.not_lt, h1.not_le,
        h1.ne, h.not_lt, h.ne']
  · have h1 : c.val = 0 := by
      rw [Rat2.val, ← h]
      norm_num
    cases op <;> simp [isDisequalityTrue, opRel, ← h, h1]
  · have h1 : c.val < 0 := hgt.mpr h
    cases op <;>
      simp [isDisequalityTrue, opRel, h.not_lt, h.ne, h1, h1.le, h1.not_lt,
        h1.not_le, h1.ne']

/-- C1 (counterexample): the accepted step `(cl (<= 0.0 0.0))` with
argument `1.0` accumulates the final pair `(>=, ([], 1/1))`: `la_generic`
accepts it although the constant is strictly *positive*, refuting the
claim's requirement that the constant be strictly negative when the final
operator is `>=` (and, mutatis mutandis, its `> `/`<= 0` reading). -/
theorem C1_positive_constant_accepted :
    laGeneric [Term.op .le [Term.real 0 1, Term.real 0 1]]
        [ProofArg.term (Term.real 1 1)] = .ok () ∧
    laGenericFinal [Term.op .le [Term.real 0 1, Term.real 0 1]] [⟨1, 1⟩] =
      .ok (Op.ge, ⟨[], ⟨1, 1⟩⟩) ∧
    parseLaArgs [ProofArg.term (Term.real 1 1)] = .ok [⟨1, 1⟩] ∧
    ¬ Rat2.val ⟨1, 1⟩ < 0 := by
  refine ⟨rfl, rfl, rfl, by norm_num [Rat2.val]⟩

/-- C1 (amended): once the accumulation succeeds with final pair
`(op, d)`, the rule accepts exactly when `d`'s coefficient map is empty and
the relation `0 op d.constant` is false; any failure is reported as
`DisequalityIsNotContradiction`; in particular, for `op = >=` the constant
must be strictly *positive*, for `op = >` it must be *non-negative*, and
for `op = =` it must be non-zero. -/
theorem C1_contradiction_check (conclusion : List Term) (args : List ProofArg)
    (argsR : List Rat2) (op : Op) (d : LinearComb)
    (hlen : args.length = conclusion.length)
    (hargs : parseLaArgs args = .ok argsR)
    (hfin : laGenericFinal conclusion argsR = .ok (op, d))
    (hden : 0 < d.const.den) :
    (laGeneric conclusion args = .ok () ↔
      d.map = [] ∧ ¬ opRel op 0 d.const.val)
    ∧ (laGeneric conclusion args ≠ .ok () →
        laGeneric conclusion args =
          .error (.disequalityIsNotContradiction op d))
    ∧ (op = Op.ge → (laGeneric conclusion args = .ok () ↔
        d.map = [] ∧ 0 < d.const.val))
    ∧ (op = Op.gt → (laGeneric conclusion args = .ok () ↔
        d.map = [] ∧ 0 ≤ d.const.val))
    ∧ (op = Op.eq → (laGeneric conclusion args = .ok () ↔
        d.map = [] ∧ d.const.val ≠ 0)) := by
  have hg : laGeneric conclusion args =
      (if d.map.isEmpty && !(isDisequalityTrue op d.const) then .ok ()
       else .error (.disequalityIsNotContradiction op d)) := by
    unfold laGeneric
    rw [if_neg (show ¬ args.length ≠ conclusion.length from fun hh => hh hlen)]
    simp only [hargs, hfin]
  have hmain : laGeneric conclusion args = .ok () ↔
      d.map = [] ∧ ¬ opRel op 0 d.const.val := by
    rw [hg, ← isDisequalityTrue_iff op d.const hden]
    cases hh1 : d.map.isEmpty with
    | false =>
      have h1' : d.map ≠ [] := by
        intro hc; rw [hc] at hh1; simp at hh1
      simp [hh1, h1']
    | true =>
      have h1' : d.map = [] := List.isEmpty_iff.mp hh1
      cases hh2 : isDisequalityTrue op d.const with
      | false => simp [hh1, hh2, h1']
      | true => simp [hh1, hh2, h1']
  refine ⟨hmain, ?_, ?_, ?_, ?_⟩
  · intro hne
    rw [hg]
    cases hc : (d.map.isEmpty && !(isDisequalityTrue op d.const)) with
    | false => simp [hc]
    | true => exact absurd (by rw [hg]; simp [hc]) hne
  · intro hop; subst hop
    rw [hmain]
    simp [opRel, not_le]
  · intro hop; subst hop
    rw [hmain]
    simp [opRel, not_lt]
  · intro hop; subst hop
    rw [hmain]
    simp [opRel, eq_comm (a := (0 : ℚ))]

/-- C1 (witness): the amended characterization applied to the accepted
step `(cl (<= 0.0 0.0))` with argument `1.0`. -/
theorem C1_contradiction_check_witness :
    laGeneric [Term.op .le [Term.real 0 1, Term.real 0 1]]
        [ProofArg.term (Term.real 1 1)] = .ok () ↔
      (⟨[], ⟨1, 1⟩⟩ : LinearComb).map = [] ∧
        ¬ opRel Op.ge 0 (Rat2.val (⟨[], ⟨1, 1⟩⟩ : LinearComb).const) :=
  (C1_contradiction_check [Term.op .le [Term.real 0 1, Term.real 0 1]]
    [ProofArg.term (Term.real 1 1)] [⟨1, 1⟩] Op.ge ⟨[], ⟨1, 1⟩⟩
    rfl rfl rfl (by norm_num)).1

/-! ### C10: the `or` rule -/

/-- C10: the `or` rule accepts exactly when there is exactly one premise,
that premise is an `Assume` whose term is an `Or` application, or a `Step`
whose clause consists of exactly one `Or` application, and the `Or`'s
argument list is element-for-element the conclusion clause. -/
theorem C10_or_rule (clause : List Term) (premises : List ProofCommand) :
    orRule clause premises = true ↔
      (premises = [ProofCommand.assume (Term.op Op.or clause)] ∨
       ∃ r pr ar,
         premises = [ProofCommand.step [Term.op Op.or clause] r pr ar]) := by
  cases premises with
  | nil => simp [orRule]
  | cons p rest =>
    cases rest with
    | cons q rest2 => simp [orRule]
    | nil =>
      cases p with
      | assume t =>
        cases t with
        | int n => simp [orRule]
        | real n d => simp [orRule]
        | var s => simp [orRule]
        | op o args =>
          by_cases ho : o = Op.or
          · subst ho
            simp [orRule, eq_comm]
          · simp [orRule, ho]
      | step cl r pr ar =>
        cases cl with
        | nil => simp [orRule]
        | cons t cl2 =>
          cases cl2 with
          | cons u cl3 => simp [orRule]
          | nil =>
            cases t with
            | int n => simp [orRule]
            | real n d => simp [orRule]
            | var s => simp [orRule]
            | op o args =>
              by_cases ho : o = Op.or
              · subst ho
                simp [orRule, eq_comm]
              · simp [orRule, ho]

/-! ### C4 and C7: the resolution rule -/

theorem toPositive_ne_both (t : Term) : (toPositive t).2 ≠ Polarity.both := by
  cases t with
  | int n => simp [toPositive]
  | real n d => simp [toPositive]
  | var s => simp [toPositive]
  | op o args =>
    cases o <;> cases args <;> simp [toPositive]

theorem premiseTerms_ne_both (premises : List ProofCommand) :
    ∀ e ∈ premiseTerms premises, e.2 ≠ Polarity.both := by
  intro e he
  simp only [premiseTerms, List.mem_map] at he
  obtain ⟨x, _, rfl⟩ := he
  exact toPositive_ne_both x

theorem alookup_append (m m2 : List (Term × Polarity)) (t : Term) :
    alookup (m ++ m2) t =
      match alookup m t with
      | some p => some p
      | none => alookup m2 t := by
  induction m with
  | nil => rfl
  | cons hd tl ih =>
    obtain ⟨k, p⟩ := hd
    by_cases h : k = t
    · simp [alookup, h]
    · simp only [List.cons_append, alookup, if_neg h]
      exact ih

theorem alookup_eq_none_iff (m : List (Term × Polarity)) (t : Term) :
    alookup m t = none ↔ t ∉ m.map Prod.fst := by
  induction m with
  | nil => simp [alookup]
  | cons hd tl ih =>
    obtain ⟨k, p⟩ := hd
    by_cases h : k = t
    · simp [alookup, h]
    · simp [alookup, h, ih, Ne.symm h]

theorem alookup_cons (a : Term) (p : Polarity)
    (tl : List (Term × Polarity)) (t : Term) :
    alookup ((a, p) :: tl) t = if a = t then some p else alookup tl t := rfl

theorem alookup_mapBoth (m : List (Term × Polarity)) (k t : Term) :
    alookup (m.map (setBoth k)) t =
      if t = k then (alookup m t).map (fun _ => Polarity.both)
      else alookup m t := by
  induction m with
  | nil => by_cases h : t = k <;> simp [alookup, h]
  | cons hd tl ih =>
    obtain ⟨a, p⟩ := hd
    rw [List.map_cons]
    by_cases hak : a = k
    · have hh : setBoth k (a, p) = (a, Polarity.both) := if_pos hak
      rw [hh, alookup_cons, alookup_cons]
      by_cases hat : a = t
      · rw [if_pos hat, if_pos hat,
          if_pos (show t = k from hat.symm.trans hak)]
        rfl
      · rw [if_neg hat, if_neg hat, ih]
    · have hh : setBoth k (a, p) = (a, p) := if_neg hak
      rw [hh, alookup_cons, alookup_cons]
      by_cases hat : a = t
      · rw [if_pos hat, if_pos hat,
          if_neg (show ¬ t = k from fun hc => hak (hat.trans hc))]
      · rw [if_neg hat, if_neg hat, ih]

theorem keys_mapBoth (m : List (Term × Polarity)) (k : Term) :
    (m.map (setBoth k)).map Prod.fst = m.map Prod.fst := by
  rw [List.map_map]
  apply List.map_congr_left
  intro x _
  show (setBoth k x).1 = x.1
  unfold setBoth
  by_cases h : x.1 = k
  · rw [if_pos h]
  · rw [if_neg h]

theorem alookup_recordTerm (m : List (Term × Polarity)) (u : Term)
    (p : Polarity) (t : Term) :
    alookup (recordTerm m (u, p)) t =
      if t = u then
        match alookup m u with
        | none => some p
        | some q =>
          some (if q ≠ Polarity.both ∧ q ≠ p then Polarity.both else q)
      else alookup m t := by
  unfold recordTerm
  cases hq : alookup m u with
  | none =>
    dsimp only
    rw [alookup_append]
    by_cases ht : t = u
    · rw [if_pos ht]
      have hmt : alookup m t = none := by rw [ht]; exact hq
      rw [hmt]
      show alookup [(u, p)] t = some p
      rw [alookup_cons, if_pos ht.symm]
    · rw [if_neg ht]
      cases hmt : alookup m t with
      | some q => rfl
      | none =>
        show alookup [(u, p)] t = none
        rw [alookup_cons, if_neg (fun hc : u = t => ht hc.symm)]
        rfl
  | some q =>
    dsimp only
    by_cases hcond : q ≠ Polarity.both ∧ q ≠ p
    · simp only [if_pos hcond]
      rw [alookup_mapBoth]
      by_cases ht : t = u
      · rw [if_pos ht, if_pos ht]
        have hmt : alookup m t = some q := by rw [ht]; exact hq
        rw [hmt]
        rfl
      · rw [if_neg ht, if_neg ht]
    · simp only [if_neg hcond]
      by_cases ht : t = u
      · rw [if_pos ht, ht]
        exact hq
      · rw [if_neg ht]

theorem nodup_keys_recordTerm {m : List (Term × Polarity)}
    (hm : (m.map Prod.fst).Nodup) (u : Term) (p : Polarity) :
    ((recordTerm m (u, p)).map Prod.fst).Nodup := by
  unfold recordTerm
  cases hq : alookup m u with
  | none =>
    dsimp only
    rw [List.map_append]
    have hnm : u ∉ m.map Prod.fst := (alookup_eq_none_iff m u).mp hq
    simp [List.nodup_append, hm, hnm]
  | some q =>
    dsimp only
    by_cases hcond : q ≠ Polarity.both ∧ q ≠ p
    · rw [if_pos hcond, keys_mapBoth]
      exact hm
    · rw [if_neg hcond]
      exact hm

theorem finalPolarity_append_singleton (processed : List (Term × Polarity))
    (u : Term) (p : Polarity) (hp : p ≠ Polarity.both) (s : Term) :
    finalPolarity (processed ++ [(u, p)]) s =
      if s = u then
        match finalPolarity processed u with
        | none => some p
        | some q =>
          some (if q ≠ Polarity.both ∧ q ≠ p then Polarity.both else q)
      else finalPolarity processed s := by
  by_cases hs : s = u
  · subst hs
    rw [if_pos rfl]
    cases p with
    | both => exact absurd rfl hp
    | positive =>
      by_cases hP : (s, Polarity.positive) ∈ processed <;>
        by_cases hN : (s, Polarity.negative) ∈ processed <;>
          simp [finalPolarity, List.mem_append, Prod.mk.injEq, hP, hN]
    | negative =>
      by_cases hP : (s, Polarity.positive) ∈ processed <;>
        by_cases hN : (s, Polarity.negative) ∈ processed <;>
          simp [finalPolarity, List.mem_append, Prod.mk.injEq, hP, hN]
  · rw [if_neg hs]
    simp [finalPolarity, List.mem_append, Prod.mk.injEq, hs]

theorem alookup_foldl_recordTerm :
    ∀ (l processed m : List (Term × Polarity)),
      (∀ e ∈ l, e.2 ≠ Polarity.both) →
      (∀ s, alookup m s = finalPolarity processed s) →
      ∀ t, alookup (l.foldl recordTerm m) t =
        finalPolarity (processed ++ l) t := by
  intro l
  induction l with
  | nil =>
    intro processed m _ hm t
    simpa using hm t
  | cons e rest ih =>
    intro processed m hl hm t
    obtain ⟨u, p⟩ := e
    have hp : p ≠ Polarity.both := hl (u, p) (List.mem_cons_self _ _)
    have hrest : ∀ x ∈ rest, x.2 ≠ Polarity.both :=
      fun x hx => hl x (List.mem_cons_of_mem _ hx)
    have hstep : ∀ s, alookup (recordTerm m (u, p)) s =
        finalPolarity (processed ++ [(u, p)]) s := by
      intro s
      rw [alookup_recordTerm, finalPolarity_append_singleton processed u p hp s]
      by_cases hs : s = u
      · rw [if_pos hs, if_pos hs, hm u]
      · rw [if_neg hs, if_neg hs, hm s]
    rw [List.foldl_cons,
      ih (processed ++ [(u, p)]) (recordTerm m (u, p)) hrest hstep t,
      List.append_assoc, List.singleton_append]

theorem alookup_buildMap (l : List (Term × Polarity))
    (hl : ∀ e ∈ l, e.2 ≠ Polarity.both) (t : Term) :
    alookup (buildMap l) t = finalPolarity l t := by
  have h := alookup_foldl_recordTerm l [] [] hl
    (fun s => by simp [alookup, finalPolarity]) t
  simpa [buildMap] using h

theorem nodup_keys_buildMap (l : List (Term × Polarity)) :
    ((buildMap l).map Prod.fst).Nodup := by
  suffices h : ∀ (l2 m : List (Term × Polarity)), (m.map Prod.fst).Nodup →
      ((l2.foldl recordTerm m).map Prod.fst).Nodup by
    exact h l [] (by simp)
  intro l2
  induction l2 with
  | nil => intro m hm; exact hm
  | cons e rest ih =>
    intro m hm
    rw [List.foldl_cons]
    obtain ⟨u, p⟩ := e
    exact ih _ (nodup_keys_recordTerm hm u p)

theorem mem_iff_alookup {m : List (Term × Polarity)}
    (hm : (m.map Prod.fst).Nodup) (t : Term) (p : Polarity) :
    (t, p) ∈ m ↔ alookup m t = some p := by
  induction m with
  | nil => simp [alookup]
  | cons hd tl ih =>
    obtain ⟨a, q⟩ := hd
    rw [List.map_cons, List.nodup_cons] at hm
    obtain ⟨ha, htl⟩ := hm
    rw [alookup_cons]
    by_cases hat : a = t
    · subst hat
      rw [if_pos rfl]
      constructor
      · intro hmem
        rcases List.mem_cons.mp hmem with h | h
        · rw [Prod.mk.injEq] at h
          rw [h.2]
        · exact absurd (List.mem_map_of_mem Prod.fst h) ha
      · intro hsome
        have hqp : q = p := by
          injection hsome
        rw [← hqp]
        exact List.mem_cons_self _ _
    · rw [if_neg hat]
      have hmc : ((t, p) ∈ (a, q) :: tl) ↔ (t, p) ∈ tl := by
        simp only [List.mem_cons, Prod.mk.injEq]
        constructor
        · rintro (⟨h1, _⟩ | h)
          · exact absurd h1.symm hat
          · exact h
        · exact Or.inr
      rw [hmc, ih htl]

theorem finalPolarity_ne_none_iff (l : List (Term × Polarity))
    (hl : ∀ e ∈ l, e.2 ≠ Polarity.both) (t : Term) :
    finalPolarity l t ≠ none ↔ t ∈ l.map Prod.fst := by
  by_cases hP : (t, Polarity.positive) ∈ l
  · have h1 : t ∈ l.map Prod.fst := List.mem_map_of_mem Prod.fst hP
    by_cases hN : (t, Polarity.negative) ∈ l <;>
      simp [finalPolarity, hP, hN, h1]
  · by_cases hN : (t, Polarity.negative) ∈ l
    · have h1 : t ∈ l.map Prod.fst := List.mem_map_of_mem Prod.fst hN
      simp [finalPolarity, hP, hN, h1]
    · have h2 : t ∉ l.map Prod.fst := by
        intro hc
        rw [List.mem_map] at hc
        obtain ⟨e, he, hef⟩ := hc
        cases hp2 : e.2 with
        | both => exact hl e he hp2
        | positive =>
          refine hP ?_
          have he2 : (t, Polarity.positive) = e := by
            rw [Prod.ext_iff]
            exact ⟨hef.symm, hp2.symm⟩
          rw [he2]
          exact he
        | negative =>
          refine hN ?_
          have he2 : (t, Polarity.negative) = e := by
            rw [Prod.ext_iff]
            exact ⟨hef.symm, hp2.symm⟩
          rw [he2]
          exact he
      simp [finalPolarity, hP, hN, h2]

theorem filter_buildMap_length (l : List (Term × Polarity))
    (hl : ∀ e ∈ l, e.2 ≠ Polarity.both) :
    ((buildMap l).filter
        (fun e => decide (e.2 ≠ Polarity.both))).length = resolvedCount l := by
  have hFkeys : (((buildMap l).filter
      (fun e => decide (e.2 ≠ Polarity.both))).map Prod.fst).Nodup :=
    ((List.filter_sublist (buildMap l)).map Prod.fst).nodup
      (nodup_keys_buildMap l)
  have hGnodup : ((l.map Prod.fst).dedup.filter
      (fun t => decide (finalPolarity l t ≠ some Polarity.both))).Nodup :=
    (List.nodup_dedup _).filter _
  have hmem : ∀ a,
      a ∈ ((buildMap l).filter
        (fun e => decide (e.2 ≠ Polarity.both))).map Prod.fst ↔
      a ∈ (l.map Prod.fst).dedup.filter
        (fun t => decide (finalPolarity l t ≠ some Polarity.both)) := by
    intro a
    constructor
    · intro h
      rw [List.mem_map] at h
      obtain ⟨e, he, hef⟩ := h
      obtain ⟨t0, p0⟩ := e
      rw [List.mem_filter] at he
      obtain ⟨hin, hpred⟩ := he
      rw [decide_eq_true_eq] at hpred
      have hfp : finalPolarity l t0 = some p0 := by
        rw [← alookup_buildMap l hl]
        exact (mem_iff_alookup (nodup_keys_buildMap l) t0 p0).mp hin
      subst hef
      rw [List.mem_filter, List.mem_dedup, decide_eq_true_eq]
      refine ⟨?_, ?_⟩
      · rw [← finalPolarity_ne_none_iff l hl]
        rw [hfp]
        simp
      · rw [hfp]
        intro hc
        exact hpred (Option.some.inj hc)
    · intro h
      rw [List.mem_filter, List.mem_dedup, decide_eq_true_eq] at h
      obtain ⟨hin, hpred⟩ := h
      have hne : finalPolarity l a ≠ none :=
        (finalPolarity_ne_none_iff l hl a).mpr hin
      cases hfp : finalPolarity l a with
      | none => exact absurd hfp hne
      | some p0 =>
        have hp0 : p0 ≠ Polarity.both := by
          intro hc
          rw [hc] at hfp
          exact hpred hfp
        have hmem2 : (a, p0) ∈ buildMap l := by
          rw [mem_iff_alookup (nodup_keys_buildMap l) a p0,
            alookup_buildMap l hl]
          exact hfp
        rw [List.mem_map]
        refine ⟨(a, p0), ?_, rfl⟩
        rw [List.mem_filter, decide_eq_true_eq]
        exact ⟨hmem2, hp0⟩
  have hperm := (List.perm_ext_iff_of_nodup hFkeys hGnodup).mpr hmem
  calc ((buildMap l).filter (fun e => decide (e.2 ≠ Polarity.both))).length
      = (((buildMap l).filter
          (fun e => decide (e.2 ≠ Polarity.both))).map Prod.fst).length :=
        (List.length_map _ _).symm
    _ = resolvedCount l := hperm.length_eq

/-- The declarative characterization of the `resolution` rule: acceptance
is equivalent to the clause having exactly the single-polarity terms of the
premises, each under its recorded polarity. -/
theorem resolution_characterization (clause : List Term)
    (premises : List ProofCommand) :
    resolution clause premises = true ↔
      (clause.length = resolvedCount (premiseTerms premises) ∧
       ∀ t ∈ clause,
         finalPolarity (premiseTerms premises) (toPositive t).1 =
           some (toPositive t).2) := by
  have hl := premiseTerms_ne_both premises
  unfold resolution
  rw [Bool.and_eq_true, decide_eq_true_eq, List.all_eq_true]
  rw [filter_buildMap_length (premiseTerms premises) hl]
  constructor
  · rintro ⟨h1, h2⟩
    refine ⟨h1, ?_⟩
    intro t ht
    have h3 := h2 t ht
    rw [decide_eq_true_eq, alookup_buildMap (premiseTerms premises) hl] at h3
    exact h3
  · rintro ⟨h1, h2⟩
    refine ⟨h1, ?_⟩
    intro t ht
    rw [decide_eq_true_eq, alookup_buildMap (premiseTerms premises) hl]
    exact h2 t ht

/-- C4: `resolution` accepts exactly when, after normalizing every premise
term to a `(positive form, polarity)` pair (an `Assume` counting as a
one-term clause) and aggregating polarities by membership (a term seen
under both polarities becoming `Both`), the clause's length equals the
number of distinct terms seen under exactly one polarity and every clause
element, normalized, carries exactly its recorded polarity. -/
theorem C4_resolution_spec (clause : List Term)
    (premises : List ProofCommand) :
    resolution clause premises = true ↔
      (clause.length = resolvedCount (premiseTerms premises) ∧
       ∀ t ∈ clause,
         finalPolarity (premiseTerms premises) (toPositive t).1 =
           some (toPositive t).2) :=
  resolution_characterization clause premises

/-- C7: acceptance of `resolution` is invariant under permuting the
premise list, and under re-grouping (associativity) of premise-list
concatenation. -/
theorem C7_resolution_premise_order (clause : List Term)
    (ps qs : List ProofCommand) (h : ps.Perm qs) :
    resolution clause ps = resolution clause qs ∧
    ∀ as bs cs : List ProofCommand,
      resolution clause ((as ++ bs) ++ cs) =
        resolution clause (as ++ (bs ++ cs)) := by
  constructor
  · have hperm : (premiseTerms ps).Perm (premiseTerms qs) :=
      (h.flatMap_right premiseClause).map toPositive
    have hfp : ∀ t, finalPolarity (premiseTerms ps) t =
        finalPolarity (premiseTerms qs) t := by
      intro t
      simp [finalPolarity, hperm.mem_iff]
    have hrc : resolvedCount (premiseTerms ps) =
        resolvedCount (premiseTerms qs) := by
      unfold resolvedCount
      have h1 : ((premiseTerms ps).map Prod.fst).Perm
          ((premiseTerms qs).map Prod.fst) := hperm.map _
      have h2 := h1.dedup
      have h3 : ((premiseTerms ps).map Prod.fst).dedup.filter
            (fun t => decide (finalPolarity (premiseTerms ps) t ≠
              some Polarity.both)) =
          ((premiseTerms ps).map Prod.fst).dedup.filter
            (fun t => decide (finalPolarity (premiseTerms qs) t ≠
              some Polarity.both)) := by
        apply List.filter_congr
        intro a _
        rw [hfp a]
      rw [h3]
      exact (h2.filter _).length_eq
    rw [Bool.eq_iff_iff, resolution_characterization,
      resolution_characterization, hrc]
    constructor
    · rintro ⟨h1, h2⟩
      exact ⟨h1, fun t ht => (hfp (toPositive t).1) ▸ h2 t ht⟩
    · rintro ⟨h1, h2⟩
      exact ⟨h1, fun t ht => (hfp (toPositive t).1).symm ▸ h2 t ht⟩
  · intro as bs cs
    rw [List.append_assoc]

/-- C7 (witness): permutation invariance applied to a two-premise swap. -/
theorem C7_resolution_premise_order_witness :
    resolution [] [ProofCommand.assume (Term.var "p"),
        ProofCommand.step [Term.op .not [Term.var "p"]] "h" [] []] =
      resolution [] [ProofCommand.step [Term.op .not [Term.var "p"]] "h" [] [],
        ProofCommand.assume (Term.var "p")] :=
  (C7_resolution_premise_order []
    [ProofCommand.assume (Term.var "p"),
      ProofCommand.step [Term.op .not [Term.var "p"]] "h" [] []]
    [ProofCommand.step [Term.op .not [Term.var "p"]] "h" [] [],
      ProofCommand.assume (Term.var "p")]
    (List.Perm.swap _ _ _)).1

/-- C4 (witness): the characterization applied to a concrete resolution
step: from `p ∨ q` and `¬p` conclude `q`. -/
theorem C4_resolution_spec_witness :
    resolution [Term.var "q"]
      [ProofCommand.step [Term.var "p", Term.var "q"] "h1" [] [],
       ProofCommand.step [Term.op .not [Term.var "p"]] "h2" [] []] = true :=
  (C4_resolution_spec [Term.var "q"]
    [ProofCommand.step [Term.var "p", Term.var "q"] "h1" [] [],
     ProofCommand.step [Term.op .not [Term.var "p"]] "h2" [] []]).mpr
    (by decide)

/-- C10 (witness): the `or` characterization applied to a concrete step. -/
theorem C10_or_rule_witness :
    orRule [Term.var "p", Term.var "q"]
      [ProofCommand.assume
        (Term.op Op.or [Term.var "p", Term.var "q"])] = true :=
  (C10_or_rule [Term.var "p", Term.var "q"]
    [ProofCommand.assume (Term.op Op.or [Term.var "p", Term.var "q"])]).mpr
    (Or.inl rfl)

/-- C8 (witness): the spawn-failure behaviour at a concrete elaborator. -/
theorem C8_spawn_failure_accepts_witness :
    (liaGenericBridge (Except.error LiaGenericError.failedSpawnCvc5) []
      (some ⟨[], []⟩)).warned = true :=
  (C8_spawn_failure_accepts [] ⟨[], []⟩).1
